import Mathlib

/-!
Verification of the localdeck reconciliation and streaming logic.

Shallow embedding of the Rust sources:
* `src/storage/operations.rs` — `TrackChange`, `Storage::diff`,
  `Storage::insert_tracks`, `Storage::_update_db_with_new_files`,
  `Storage::get_track`, `Storage::forget_path`;
* `src/storage/fs.rs` — `is_music_file`, `is_valid_music_path`;
* `src/storage/schema.rs` — the four tables, modelled as a `DBState` record;
* `src/http/server.rs` — `parse_http_range`, the range-serving part of
  `get_track_stream`;
* `src/http/error.rs` — `ApiError` and its status codes.

Track identities and file paths are modelled as `String` (the Rust code
stores `TrackId` as its hex string in the database and compares paths as
strings).  `HashSet<PathBuf>` becomes `Finset String`; the
`HashMap<TrackId, TrackChange>` built by `diff` becomes an association
list with the usual insert-or-update semantics; SQL tables become lists
(rows in query order) or association lists.  `u64` arithmetic is `Nat`
with explicit wrap-around `% 2 ^ 64` where overflow can matter.
-/

namespace Localdeck

/-- One observed (identity, path) pair, from `src/storage/fs.rs`
(`ObservedFile`). -/
structure ObservedFile where
  track_id : String
  path : String
deriving DecidableEq, Repr

/-- Per-identity pair of location sets, from `src/storage/operations.rs`
(`TrackChange`), with `HashSet<PathBuf>` modelled as `Finset String`. -/
structure TrackChange where
  db_locations : Finset String
  fs_locations : Finset String
deriving DecidableEq

/-- Model of `TrackChange::new_locations`: `&self.fs_locations - &self.db_locations`. -/
def TrackChange.new_locations (c : TrackChange) : Finset String :=
  c.fs_locations \ c.db_locations

/-- Model of `TrackChange::deleted_locations`: `&self.db_locations - &self.fs_locations`. -/
def TrackChange.deleted_locations (c : TrackChange) : Finset String :=
  c.db_locations \ c.fs_locations

/-- The `Diff = HashMap<TrackId, TrackChange>` modelled as an association list. -/
abbrev Diff := List (String × TrackChange)

/-- Lookup in the association list modelling the `HashMap`. -/
def diffGet : Diff → String → Option TrackChange
  | [], _ => none
  | e :: rest, t => if e.1 = t then some e.2 else diffGet rest t

/-- The fs-side loop body of `Storage::diff`: on `locs.get_mut(&file.track_id)`
insert the path into `fs_locations`, otherwise insert a fresh entry with
`fs_locations = {path}` and empty `db_locations`. -/
def addFsPath : Diff → String → String → Diff
  | [], t, p => [(t, ⟨∅, {p}⟩)]
  | e :: rest, t, p =>
    if e.1 = t then (e.1, { e.2 with fs_locations := insert p e.2.fs_locations }) :: rest
    else e :: addFsPath rest t p

/-- The db-side loop body of `Storage::diff`: symmetric to `addFsPath`. -/
def addDbPath : Diff → String → String → Diff
  | [], t, p => [(t, ⟨{p}, ∅⟩)]
  | e :: rest, t, p =>
    if e.1 = t then (e.1, { e.2 with db_locations := insert p e.2.db_locations }) :: rest
    else e :: addDbPath rest t p

namespace Storage

/-- Model of `Storage::diff` from `src/storage/operations.rs`: convert both snapshot
file lists to sets (`dedup`), fold the fs files then the db files into the
map, and finally remove every identity whose two location sets are equal. -/
def diff (fs db : List ObservedFile) : Diff :=
  let fs_files := fs.dedup
  let db_files := db.dedup
  let locs : Diff := fs_files.foldl (fun m f => addFsPath m f.track_id f.path) []
  let locs := db_files.foldl (fun m f => addDbPath m f.track_id f.path) locs
  locs.filter (fun e => ¬(e.2.db_locations = e.2.fs_locations))

end Storage

/-- The set of paths a snapshot's file list records for one identity
(specification-side grouping: locations grouped by track identity). -/
def pathsOf (files : List ObservedFile) (t : String) : Finset String :=
  ((files.filter (fun f => f.track_id = t)).map (fun f => f.path)).toFinset

/-! ### Concrete diff example (spec §8, "Diff move/copy/delete") -/

/-- Catalog snapshot of the concrete example:
`{(T1,a),(T2,b1),(T2,b2),(T3,c1)}`. -/
def exDb : List ObservedFile :=
  [⟨"T1", "a"⟩, ⟨"T2", "b1"⟩, ⟨"T2", "b2"⟩, ⟨"T3", "c1"⟩]

/-- Filesystem snapshot of the concrete example:
`{(T1,a_new),(T2,b1),(T3,c1),(T3,c2),(T4,d)}`. -/
def exFs : List ObservedFile :=
  [⟨"T1", "a_new"⟩, ⟨"T2", "b1"⟩, ⟨"T3", "c1"⟩, ⟨"T3", "c2"⟩, ⟨"T4", "d"⟩]

/-! ### Catalog state, fs model and storage operations -/

/-- Model of `TrackMetadata` from `src/domain/track.rs` (`ArtworkRef` inlined as its
payload string, `u32` year as `Nat`). -/
structure TrackMetadata where
  artist : String
  title : String
  year : Option Nat
  label : Option String
  artwork : Option String
deriving DecidableEq, Repr

/-- The persistent catalog of `src/storage/schema.rs`: `tracks(track_id PK)`,
`files(track_id, path, PK(track_id, path))`, `track_metadata(track_id PK, …)`,
`updates(updated_at)`.  Tables are lists of rows in insertion order (the
arbitrary-but-deterministic order in which un-`ORDER BY`ed queries return
them); the primary keys are maintained by the insert-or-ignore operations. -/
structure DBState where
  tracks : List String
  files : List (String × String)
  track_metadata : List (String × TrackMetadata)
  updates : List Int
deriving DecidableEq, Repr

/-- Model of `StorageError` from `src/storage/error.rs` (payloads kept only where the
claims need them). -/
inductive StorageError where
  | Database
  | TrackNotFound (track : String)
  | InvalidTrackFile (track : String)
  | Fs
  | InvalidTrackId
  | Internal
deriving DecidableEq, Repr

/-- Model of `FsSnapshot` from `src/storage/fs.rs`: observation timestamp (sampled
once, by `SystemTime::now()` at the start of `FsSnapshot::scan`, before the
walk) plus the observed files. -/
structure FsSnapshot where
  observed_at : Int
  files : List ObservedFile
deriving DecidableEq, Repr

/-- Model of `DBSnapshot` from `src/storage/operations.rs`. -/
structure DBSnapshot where
  updated_at : Int
  files : List ObservedFile
deriving DecidableEq, Repr

/-- One on-disk file as seen by `is_valid_music_path` and the streaming
code: the `is_file` / readability flags of its metadata and its byte
content (`len()` is `content.length`). -/
structure FsFile where
  is_file : Bool
  readable : Bool
  content : List Nat
deriving DecidableEq, Repr

/-- The file system visible to validity checks and streaming: a partial map
from path to file. -/
def FileSystem := String → Option FsFile

/-- Split a character list at every occurrence of the separator, keeping
empty pieces — the semantics of Rust `str::split(char)` (string functions
are modelled on the character lists of the strings throughout). -/
def splitChar (c : Char) : List Char → List (List Char)
  | [] => [[]]
  | x :: xs =>
    let r := splitChar c xs
    if x = c then [] :: r
    else
      match r with
      | [] => [[x]]
      | h :: t => (x :: h) :: t

/-- Model of `MUSIC_EXTENSIONS` from `src/storage/fs.rs`. -/
def MUSIC_EXTENSIONS : List (List Char) :=
  ["mp3".data, "flac".data, "wav".data, "m4a".data, "ogg".data, "aac".data]

/-- Rust `Path::extension` on a path string, per the documented std
semantics: the part of the file name after the final `.`, none when there
is no `.`, when the only `.` leads the file name, or for `..`. -/
def extensionOf (p : String) : Option (List Char) :=
  let name := (splitChar '/' p.data).getLastD []
  if name = ['.', '.'] then none
  else
    match splitChar '.' name with
    | [] => none
    | [_] => none
    | first :: rest =>
      if first = [] ∧ rest.length = 1 then none
      else some (rest.getLastD [])

/-- Model of `is_music_file` from `src/storage/fs.rs`: the lower-cased extension is
in the allow-list. -/
def is_music_file (p : String) : Bool :=
  match extensionOf p with
  | some ext => MUSIC_EXTENSIONS.contains (ext.map Char.toLower)
  | none => false

/-- Model of `is_valid_music_path` from `src/storage/fs.rs`: metadata must be
readable, a regular file, a music extension, non-zero length, and openable. -/
def is_valid_music_path (fs : FileSystem) (p : String) : Bool :=
  match fs p with
  | none => false
  | some f =>
    if ¬f.is_file then false
    else if ¬is_music_file p then false
    else if f.content.length = 0 then false
    else f.readable

/-- Lexicographic comparison of character lists by code point, used to give
the modelled `HashSet` iteration a canonical order. -/
def charsLe : List Char → List Char → Bool
  | [], _ => true
  | _ :: _, [] => false
  | a :: as, b :: bs =>
    if a.toNat < b.toNat then true
    else if b.toNat < a.toNat then false
    else charsLe as bs

/-- Lexicographic order on strings via `charsLe`. -/
def strLe (a b : String) : Prop := charsLe a.data b.data = true

instance : DecidableRel strLe := fun _ _ => instDecidableEqBool _ _

/-- Totality of `charsLe` (proof term used by the order instances). -/
def charsLe_total : ∀ a b, charsLe a b = true ∨ charsLe b a = true
  | [], _ => Or.inl rfl
  | _ :: _, [] => Or.inr rfl
  | a :: as, b :: bs => by
    simp only [charsLe]
    rcases Nat.lt_trichotomy a.toNat b.toNat with h | h | h
    · left
      simp [h]
    · have h2 : ¬a.toNat < b.toNat := by omega
      have h3 : ¬b.toNat < a.toNat := by omega
      simpa [h2, h3] using charsLe_total as bs
    · right
      simp [h]

/-- A `charsLe`-smaller list has a not-larger head. -/
def charsLe_head_le {a b : Char} {as bs : List Char}
    (h : charsLe (a :: as) (b :: bs) = true) : a.toNat ≤ b.toNat := by
  by_contra hc
  have h1 : ¬a.toNat < b.toNat := by omega
  have h2 : b.toNat < a.toNat := by omega
  simp [charsLe, h1, h2] at h

/-- Transitivity of `charsLe`. -/
def charsLe_trans : ∀ a b c, charsLe a b = true → charsLe b c = true →
    charsLe a c = true
  | [], _, _ => by simp [charsLe]
  | _ :: _, [], _ => by simp [charsLe]
  | _ :: _, _ :: _, [] => by simp [charsLe]
  | a :: as, b :: bs, c :: cs => by
    intro hab hbc
    have hab' := charsLe_head_le hab
    have hbc' := charsLe_head_le hbc
    by_cases h3 : a.toNat < c.toNat
    · simp [charsLe, h3]
    · have g1 : ¬a.toNat < b.toNat := by omega
      have g2 : ¬b.toNat < a.toNat := by omega
      have g3 : ¬b.toNat < c.toNat := by omega
      have g4 : ¬c.toNat < b.toNat := by omega
      have h4 : ¬c.toNat < a.toNat := by omega
      simp only [charsLe, h3, h4, if_neg, if_false, ite_false]
      exact charsLe_trans as bs cs (by simpa [charsLe, g1, g2] using hab)
        (by simpa [charsLe, g3, g4] using hbc)

/-- Characters with equal code points are equal. -/
def char_toNat_inj {a b : Char} (h : a.toNat = b.toNat) : a = b :=
  Char.ext (UInt32.ext h)

/-- Antisymmetry of `charsLe`. -/
def charsLe_antisymm : ∀ a b, charsLe a b = true → charsLe b a = true → a = b
  | [], [] => by simp
  | [], _ :: _ => by simp [charsLe]
  | _ :: _, [] => by simp [charsLe]
  | a :: as, b :: bs => by
    intro hab hba
    have h1 := charsLe_head_le hab
    have h2 := charsLe_head_le hba
    have g1 : ¬a.toNat < b.toNat := by omega
    have g2 : ¬b.toNat < a.toNat := by omega
    have he : a = b := char_toNat_inj (by omega)
    have tail := charsLe_antisymm as bs
      (by simpa [charsLe, g1, g2] using hab) (by simpa [charsLe, g1, g2] using hba)
    rw [he, tail]

instance : IsTotal String strLe := ⟨fun a b => charsLe_total a.data b.data⟩

instance : IsTrans String strLe := ⟨fun a b c => charsLe_trans a.data b.data c.data⟩

instance : IsAntisymm String strLe :=
  ⟨fun a b h1 h2 => by
    have h := charsLe_antisymm a.data b.data h1 h2
    cases a
    cases b
    exact congrArg String.mk h⟩

/-- Enumerate a finite set of strings as its `strLe`-sorted list — the
model of iterating a `HashSet<PathBuf>` (some arbitrary-but-fixed order). -/
def sortFinset (s : Finset String) : List String :=
  Quotient.liftOn s.val (fun l => List.insertionSort strLe l)
    (fun _ _ h => List.eq_of_perm_of_sorted
      ((List.perm_insertionSort _ _).trans (h.trans (List.perm_insertionSort _ _).symm))
      (List.sorted_insertionSort _ _) (List.sorted_insertionSort _ _))

/-- The loop body of `Storage::insert_tracks`: `INSERT OR IGNORE` into
`tracks`, then `INSERT OR IGNORE` into `files`, counting files actually
inserted (`rusqlite` reports 1 for an insert, 0 when ignored). -/
def insertStep (acc : Nat × DBState) (it : String × String) : Nat × DBState :=
  let st := acc.2
  let st := if it.1 ∈ st.tracks then st else { st with tracks := st.tracks ++ [it.1] }
  if it ∈ st.files then (acc.1, st)
  else (acc.1 + 1, { st with files := st.files ++ [it] })

namespace Storage

/-- Model of `Storage::insert_tracks`: one transaction inserting every pair
idempotently, then appending one `updates` row carrying `now` — the value
of `SystemTime::now()` sampled inside `insert_tracks` at commit time. -/
def insert_tracks (s : DBState) (tracks_with_files : List (String × String))
    (now : Int) : Nat × DBState :=
  let r := tracks_with_files.foldl insertStep (0, s)
  (r.1, { r.2 with updates := r.2.updates ++ [now] })

/-- Model of `Storage::scan_db`: all `files` rows plus
`COALESCE(MAX(updated_at), 0)`. -/
def scan_db (s : DBState) : DBSnapshot :=
  { updated_at := s.updates.foldl max 0,
    files := s.files.map (fun f => ⟨f.1, f.2⟩) }

/-- Model of `Storage::status`: the filesystem walk is I/O, so the resulting
`FsSnapshot` is a parameter; then a fresh catalog read and the diff. -/
def status (s : DBState) (fs : FsSnapshot) : FsSnapshot × DBSnapshot × Diff :=
  let db := scan_db s
  (fs, db, diff fs.files db.files)

/-- Model of `Storage::_update_db_with_new_files`: flatten the diff's new locations
(`HashSet` iteration modelled in sorted order) into `ObservedFile`s, insert
them, and return them. -/
def update_db_with_new_files_inner (s : DBState) (diff_result : Diff)
    (now : Int) : List ObservedFile × DBState :=
  let new_files := diff_result.flatMap (fun e =>
    (sortFinset e.2.new_locations).map (fun p => ObservedFile.mk e.1 p))
  let r := insert_tracks s (new_files.map (fun of => (of.track_id, of.path))) now
  (new_files, r.2)

/-- Model of `Storage::update_db_with_new_files`: `status()` then commit the new
locations.  `now` is the commit-time clock sample made inside
`insert_tracks`; it is distinct from `fs.observed_at`, which was sampled
when the walk started. -/
def update_db_with_new_files (s : DBState) (fs : FsSnapshot) (now : Int) :
    List ObservedFile × DBState :=
  let r := status s fs
  update_db_with_new_files_inner s r.2.2 now

/-- Model of `Storage::get_track`: all stored paths for the identity (in query
order); `TrackNotFound` when there are none; otherwise the metadata row, if
any, and the first path passing `is_valid_music_path`, or
`InvalidTrackFile` when none passes. -/
def get_track (s : DBState) (fs : FileSystem) (track_id : String) :
    Except StorageError (String × String × Option TrackMetadata) :=
  let paths := (s.files.filter (fun f => f.1 = track_id)).map (fun f => f.2)
  if paths = [] then .error (.TrackNotFound track_id)
  else
    let metadata := (s.track_metadata.find? (fun row => row.1 = track_id)).map
      (fun row => row.2)
    match paths.find? (fun p => is_valid_music_path fs p) with
    | some path => .ok (track_id, path, metadata)
    | none => .error (.InvalidTrackFile track_id)

end Storage

/-- Model of `ForgetReport` from `src/storage/operations.rs`. -/
structure ForgetReport where
  removed_files : Nat
  affected_tracks : Nat
  removed_tracks : Nat
deriving DecidableEq, Repr

/-- SQLite's default `LIKE` case folding: ASCII upper-case letters map to
lower case, every other character is unchanged (the `sqlite3UpperToLower`
table; case-insensitivity applies to ASCII only). -/
def asciiLower (c : Char) : Char :=
  if 65 ≤ c.toNat ∧ c.toNat ≤ 90 then Char.ofNat (c.toNat + 32) else c

/-- SQLite `LIKE` with its default settings (no `ESCAPE`, no
`case_sensitive_like` pragma): the pattern must match the whole string,
`%` matches any sequence of characters (including none), `_` matches
exactly one character, and ordinary characters compare ASCII
case-insensitively. -/
def likeMatch : List Char → List Char → Bool
  | [], s => s.isEmpty
  | p :: ps, s =>
    if p = '%' then (s.tails).any (fun t => likeMatch ps t)
    else
      match s with
      | [] => false
      | c :: cs =>
        if p = '_' then likeMatch ps cs
        else asciiLower p = asciiLower c && likeMatch ps cs

/-- The SQL predicate of `forget_path`:
`path = ?1 OR path LIKE ?2` with `?2 = format!("{}/%", prefix)` — exact
(case-sensitive, `BINARY` collation) equality with the subtree, or an
SQLite-`LIKE` match against the subtree followed by `/%`.  The `LIKE` arm
is ASCII case-insensitive, and `%`/`_` occurring in the subtree itself act
as wildcards. -/
def matchesSubtree (sub p : String) : Bool :=
  p = sub || likeMatch (sub ++ "/%").data p.data

/-- Model of `Storage::forget_path`: inside one transaction, collect the distinct
affected identities, count and delete every `files` row whose path equals
the subtree or is nested under it, count the affected identities left with
zero remaining `files` rows, and append one `updates` row with the
commit-time clock sample `now`.  No `tracks` or `track_metadata` row is
touched. -/
def Storage.forget_path (s : DBState) (path : String) (now : Int) :
    ForgetReport × DBState :=
  let affected_track_ids :=
    ((s.files.filter (fun f => matchesSubtree path f.2)).map (fun f => f.1)).dedup
  let affected_tracks := affected_track_ids.length
  let removed_files := (s.files.filter (fun f => matchesSubtree path f.2)).length
  let files' := s.files.filter (fun f => ¬matchesSubtree path f.2)
  let removed_tracks := (affected_track_ids.filter
    (fun t => (files'.filter (fun f => f.1 = t)).length = 0)).length
  (⟨removed_files, affected_tracks, removed_tracks⟩,
   { s with files := files', updates := s.updates ++ [now] })

/-! ### HTTP layer -/

/-- Model of `ApiError` from `src/http/error.rs`. -/
inductive ApiError where
  | NotFound (msg : String)
  | BadRequest (msg : String)
  | Internal (msg : String)
  | InvalidRange
deriving DecidableEq, Repr

/-- Model of `ApiError::status_code`. -/
def ApiError.status_code : ApiError → Nat
  | .NotFound _ => 404
  | .BadRequest _ => 400
  | .Internal _ => 500
  | .InvalidRange => 416

/-- Wrapping `u64` subtraction of 1, the release-mode meaning of
`file_size - 1` in `parse_http_range`. -/
def u64_sub_one (n : Nat) : Nat := (n + 2 ^ 64 - 1) % 2 ^ 64

/-- The value of a decimal digit character, `none` for a non-digit. -/
def charDigit (c : Char) : Option Nat :=
  if '0' ≤ c ∧ c ≤ '9' then some (c.toNat - '0'.toNat) else none

/-- Accumulate decimal digits left to right; fail on any non-digit. -/
def parseDecAux : List Char → Nat → Option Nat
  | [], n => some n
  | c :: cs, n =>
    match charDigit c with
    | some d => parseDecAux cs (n * 10 + d)
    | none => none

/-- Model of `str::parse::<u64>`: optional leading `+`, at least one decimal digit,
nothing else, and the value must fit in 64 bits. -/
def parse_u64 (s : List Char) : Option Nat :=
  let l := match s with
    | '+' :: rest => rest
    | l => l
  match l with
  | [] => none
  | _ =>
    match parseDecAux l 0 with
    | some n => if n < 2 ^ 64 then some n else none
    | none => none

/-- The extraction half of `HttpServer::parse_http_range`: `none` when the
header lacks the `bytes=` prefix or does not split on `-` into exactly two
parts; otherwise the `(start, end)` pair, a failed start parse defaulting
to 0 and an empty or failed end parse defaulting to `file_size - 1`. -/
def range_start_end (range : String) (file_size : Nat) : Option (Nat × Nat) :=
  if ¬List.isPrefixOf "bytes=".data range.data then none
  else
    match splitChar '-' (range.data.drop 6) with
    | [p0, p1] =>
      let start := (parse_u64 p0).getD 0
      let stop :=
        if p1 ≠ [] then (parse_u64 p1).getD (u64_sub_one file_size)
        else u64_sub_one file_size
      some (start, stop)
    | _ => none

/-- Model of `HttpServer::parse_http_range`: extract the pair, then validate
`start <= end && end < file_size`; a violation is the distinct
`ApiError::InvalidRange` (`Ok(None)` means "serve the full file"). -/
def parse_http_range (range : String) (file_size : Nat) :
    Except ApiError (Option (Nat × Nat)) :=
  match range_start_end range file_size with
  | none => .ok none
  | some (start, stop) =>
    if start > stop ∨ stop ≥ file_size then .error .InvalidRange
    else .ok (some (start, stop))

/-- An HTTP response: status, headers, body bytes. -/
structure HttpResponse where
  status_code : Nat
  headers : List (String × String)
  body : List Nat
deriving DecidableEq, Repr

/-- The `with_extra_headers` closure of `HttpServer::get_track_stream`:
always add `Accept-Ranges: bytes`, and the X-Track headers when metadata
exists. -/
def with_extra_headers (meta : Option TrackMetadata) (resp : HttpResponse) :
    HttpResponse :=
  let resp := { resp with headers := resp.headers ++ [("Accept-Ranges", "bytes")] }
  match meta with
  | some m =>
    { resp with headers :=
        resp.headers ++ [("X-Track-Artist", m.artist), ("X-Track-Title", m.title)] }
  | none => resp

/-- The serving tail of `HttpServer::get_track_stream`, once the track has
been resolved and the file opened: `bytes` is the opened file's content.
A parsed range seeks to `start` and reads exactly `end - start + 1` bytes
into a 206 response with a `Content-Range` header; otherwise the whole
file is served with status 200. -/
def serve_stream (bytes : List Nat) (meta : Option TrackMetadata) (mime : String)
    (range_header : Option String) : Except ApiError HttpResponse :=
  let file_size := bytes.length
  let full : HttpResponse :=
    { status_code := 200, headers := [("Content-Type", mime)], body := bytes }
  match range_header with
  | some range =>
    match parse_http_range range file_size with
    | .error e => .error e
    | .ok (some (start, stop)) =>
      .ok (with_extra_headers meta
        { status_code := 206,
          headers := [("Content-Type", mime),
            ("Content-Range",
              "bytes " ++ toString start ++ "-" ++ toString stop ++ "/" ++
                toString file_size)],
          body := (bytes.drop start).take (stop - start + 1) })
    | .ok none => .ok (with_extra_headers meta full)
  | none => .ok (with_extra_headers meta full)

/-- Status code of a serve result, `none` on error. -/
def statusOf : Except ApiError HttpResponse → Option Nat
  | .ok resp => some resp.status_code
  | .error _ => none

/-- Decidable equality for `Except` results, used to evaluate the model on
concrete inputs. -/
instance {e a : Type} [DecidableEq e] [DecidableEq a] : DecidableEq (Except e a) :=
  fun x y =>
  match x, y with
  | .error u, .error v => decidable_of_iff (u = v) (by simp)
  | .error _, .ok _ => isFalse (fun h => Except.noConfusion h)
  | .ok _, .error _ => isFalse (fun h => Except.noConfusion h)
  | .ok u, .ok v => decidable_of_iff (u = v) (by simp)

/-! ### Concrete fixtures used by examples and witnesses -/

/-- A 10-byte file content. -/
def bytes10 : List Nat := List.range 10

/-- Metadata row used in examples. -/
def exMeta : TrackMetadata := ⟨"artist", "title", none, none, none⟩

/-- Catalog used by the forget-path example (spec §8, "Forget semantics"):
A at /music/x1, /music/sub/x2 and /other/x3; B at /music/y only, with a
metadata row. -/
def exForget : DBState :=
  { tracks := ["A", "B"],
    files := [("A", "/music/x1"), ("A", "/music/sub/x2"),
              ("A", "/other/x3"), ("B", "/music/y")],
    track_metadata := [("B", exMeta)],
    updates := [] }

/-- Catalog used by the lookup example: T1 stored at an invalid path and a
valid one, in that query order. -/
def exStore : DBState :=
  { tracks := ["T1"],
    files := [("T1", "/lib/bad.txt"), ("T1", "/lib/good.mp3")],
    track_metadata := [("T1", exMeta)],
    updates := [] }

/-- File system for the lookup example: the `.txt` path fails the music
check, the `.mp3` path passes it. -/
def exFsMap : FileSystem := fun p =>
  if p = "/lib/bad.txt" then some ⟨true, true, [8]⟩
  else if p = "/lib/good.mp3" then some ⟨true, true, [7]⟩
  else none

theorem mem_pathsOf {files : List ObservedFile} {t p : String} :
    p ∈ pathsOf files t ↔ ⟨t, p⟩ ∈ files := by
  unfold pathsOf
  simp only [List.mem_toFinset, List.mem_map, List.mem_filter, decide_eq_true_eq]
  constructor
  · rintro ⟨f, ⟨hf, ht⟩, hp⟩
    cases f
    simp_all
  · intro h
    exact ⟨⟨t, p⟩, ⟨h, rfl⟩, rfl⟩

theorem pathsOf_cons (f : ObservedFile) (l : List ObservedFile) (t : String) :
    pathsOf (f :: l) t =
      if f.track_id = t then insert f.path (pathsOf l t) else pathsOf l t := by
  unfold pathsOf
  by_cases h : f.track_id = t <;> simp [List.filter_cons, h]

theorem pathsOf_dedup (l : List ObservedFile) (t : String) :
    pathsOf l.dedup t = pathsOf l t := by
  apply Finset.ext
  intro p
  simp [mem_pathsOf]

theorem diffGet_addFsPath (m : Diff) (t p t' : String) :
    diffGet (addFsPath m t p) t' =
      if t = t' then
        some (match diffGet m t with
          | some c => { c with fs_locations := insert p c.fs_locations }
          | none => ⟨∅, {p}⟩)
      else diffGet m t' := by
  induction m with
  | nil =>
    by_cases h : t = t' <;> simp [addFsPath, diffGet, h]
  | cons e rest ih =>
    by_cases he : e.1 = t
    · subst he
      by_cases h : e.1 = t' <;> simp [addFsPath, diffGet, h]
    · by_cases h : t = t'
      · subst h
        simp [addFsPath, diffGet, he, ih]
      · have h' : ¬t' = t := fun hh => h hh.symm
        by_cases h2 : e.1 = t' <;>
          simp [addFsPath, diffGet, he, h2, ih, h, h']

theorem diffGet_addDbPath (m : Diff) (t p t' : String) :
    diffGet (addDbPath m t p) t' =
      if t = t' then
        some (match diffGet m t with
          | some c => { c with db_locations := insert p c.db_locations }
          | none => ⟨{p}, ∅⟩)
      else diffGet m t' := by
  induction m with
  | nil =>
    by_cases h : t = t' <;> simp [addDbPath, diffGet, h]
  | cons e rest ih =>
    by_cases he : e.1 = t
    · subst he
      by_cases h : e.1 = t' <;> simp [addDbPath, diffGet, h]
    · by_cases h : t = t'
      · subst h
        simp [addDbPath, diffGet, he, ih]
      · have h' : ¬t' = t := fun hh => h hh.symm
        by_cases h2 : e.1 = t' <;>
          simp [addDbPath, diffGet, he, h2, ih, h, h']

/-- Characterization of the fold over the filesystem snapshot. -/
theorem diffGet_foldFs (l : List ObservedFile) (m : Diff) (t : String) :
    diffGet (l.foldl (fun m f => addFsPath m f.track_id f.path) m) t =
      match diffGet m t with
      | some c => some ⟨c.db_locations, pathsOf l t ∪ c.fs_locations⟩
      | none => if pathsOf l t = ∅ then none else some ⟨∅, pathsOf l t⟩ := by
  induction l generalizing m with
  | nil =>
    have hp : pathsOf [] t = ∅ := by simp [pathsOf]
    cases h : diffGet m t <;> simp [hp, h]
  | cons f l ih =>
    rw [List.foldl_cons, ih, diffGet_addFsPath, pathsOf_cons]
    by_cases hf : f.track_id = t
    · subst hf
      rw [if_pos rfl, if_pos rfl]
      cases h : diffGet m f.track_id with
      | some c =>
        have hu : pathsOf l f.track_id ∪ insert f.path c.fs_locations =
            insert f.path (pathsOf l f.track_id) ∪ c.fs_locations := by
          rw [Finset.union_insert, Finset.insert_union]
        simp [hu]
      | none =>
        have hne : insert f.path (pathsOf l f.track_id) ≠ ∅ :=
          Finset.insert_ne_empty _ _
        have hsing : pathsOf l f.track_id ∪ {f.path} =
            insert f.path (pathsOf l f.track_id) := by
          rw [Finset.union_comm, ← Finset.insert_eq]
        simp [hne, hsing]
    · rw [if_neg hf, if_neg hf]

/-- Characterization of the fold over the database snapshot. -/
theorem diffGet_foldDb (l : List ObservedFile) (m : Diff) (t : String) :
    diffGet (l.foldl (fun m f => addDbPath m f.track_id f.path) m) t =
      match diffGet m t with
      | some c => some ⟨pathsOf l t ∪ c.db_locations, c.fs_locations⟩
      | none => if pathsOf l t = ∅ then none else some ⟨pathsOf l t, ∅⟩ := by
  induction l generalizing m with
  | nil =>
    have hp : pathsOf [] t = ∅ := by simp [pathsOf]
    cases h : diffGet m t <;> simp [hp, h]
  | cons f l ih =>
    rw [List.foldl_cons, ih, diffGet_addDbPath, pathsOf_cons]
    by_cases hf : f.track_id = t
    · subst hf
      rw [if_pos rfl, if_pos rfl]
      cases h : diffGet m f.track_id with
      | some c =>
        have hu : pathsOf l f.track_id ∪ insert f.path c.db_locations =
            insert f.path (pathsOf l f.track_id) ∪ c.db_locations := by
          rw [Finset.union_insert, Finset.insert_union]
        simp [hu]
      | none =>
        have hne : insert f.path (pathsOf l f.track_id) ≠ ∅ :=
          Finset.insert_ne_empty _ _
        have hsing : pathsOf l f.track_id ∪ {f.path} =
            insert f.path (pathsOf l f.track_id) := by
          rw [Finset.union_comm, ← Finset.insert_eq]
        simp [hne, hsing]
    · rw [if_neg hf, if_neg hf]

/-- Lemma: `addFsPath` keeps the key list duplicate-free. -/
theorem addFsPath_keys (m : Diff) (t p : String) :
    (addFsPath m t p).map Prod.fst =
      if t ∈ m.map Prod.fst then m.map Prod.fst else m.map Prod.fst ++ [t] := by
  induction m with
  | nil => simp [addFsPath]
  | cons e rest ih =>
    by_cases he : e.1 = t
    · subst he
      simp [addFsPath]
    · have h' : ¬t = e.1 := fun hh => he hh.symm
      have hmem : t ∈ (e :: rest).map Prod.fst ↔ t ∈ rest.map Prod.fst := by
        simp [h']
      by_cases hm : t ∈ rest.map Prod.fst <;>
        simp [addFsPath, he, h', ih, hm, hmem]

theorem addDbPath_keys (m : Diff) (t p : String) :
    (addDbPath m t p).map Prod.fst =
      if t ∈ m.map Prod.fst then m.map Prod.fst else m.map Prod.fst ++ [t] := by
  induction m with
  | nil => simp [addDbPath]
  | cons e rest ih =>
    by_cases he : e.1 = t
    · subst he
      simp [addDbPath]
    · have h' : ¬t = e.1 := fun hh => he hh.symm
      have hmem : t ∈ (e :: rest).map Prod.fst ↔ t ∈ rest.map Prod.fst := by
        simp [h']
      by_cases hm : t ∈ rest.map Prod.fst <;>
        simp [addDbPath, he, h', ih, hm, hmem]

theorem nodup_keys_addFsPath {m : Diff} (h : (m.map Prod.fst).Nodup)
    (t p : String) : ((addFsPath m t p).map Prod.fst).Nodup := by
  rw [addFsPath_keys]
  by_cases hm : t ∈ m.map Prod.fst
  · simpa [hm]
  · simpa [hm] using List.Nodup.append h (List.nodup_singleton t) (by simpa using hm)

theorem nodup_keys_addDbPath {m : Diff} (h : (m.map Prod.fst).Nodup)
    (t p : String) : ((addDbPath m t p).map Prod.fst).Nodup := by
  rw [addDbPath_keys]
  by_cases hm : t ∈ m.map Prod.fst
  · simpa [hm]
  · simpa [hm] using List.Nodup.append h (List.nodup_singleton t) (by simpa using hm)

theorem nodup_keys_foldFs (l : List ObservedFile) (m : Diff)
    (h : (m.map Prod.fst).Nodup) :
    ((l.foldl (fun m f => addFsPath m f.track_id f.path) m).map Prod.fst).Nodup := by
  induction l generalizing m with
  | nil => exact h
  | cons f l ih => exact ih _ (nodup_keys_addFsPath h _ _)

theorem nodup_keys_foldDb (l : List ObservedFile) (m : Diff)
    (h : (m.map Prod.fst).Nodup) :
    ((l.foldl (fun m f => addDbPath m f.track_id f.path) m).map Prod.fst).Nodup := by
  induction l generalizing m with
  | nil => exact h
  | cons f l ih => exact ih _ (nodup_keys_addDbPath h _ _)

/-- Lookup after filtering a duplicate-free association list. -/
theorem diffGet_filter (m : Diff) (q : String × TrackChange → Bool)
    (h : (m.map Prod.fst).Nodup) (t : String) :
    diffGet (m.filter q) t =
      match diffGet m t with
      | some c => if q (t, c) then some c else none
      | none => none := by
  induction m with
  | nil => simp [diffGet]
  | cons e rest ih =>
    have hrest : (rest.map Prod.fst).Nodup := (List.nodup_cons.mp (by simpa using h)).2
    have hnotin : e.1 ∉ rest.map Prod.fst := (List.nodup_cons.mp (by simpa using h)).1
    by_cases he : e.1 = t
    · subst he
      have hnone : diffGet rest e.1 = none := by
        clear ih h hrest
        induction rest with
        | nil => rfl
        | cons e2 r2 ih2 =>
          have h1 : ¬ e2.1 = e.1 := by
            intro hh
            exact hnotin (by simp [hh])
          have h2 : e.1 ∉ r2.map Prod.fst := fun hh => hnotin (by simp [hh])
          simp [diffGet, h1, ih2 h2]
      cases hq : q e with
      | true =>
        simp [List.filter_cons, hq, diffGet]
      | false =>
        simp only [List.filter_cons, hq, Bool.false_eq_true, if_neg, ite_false]
        rw [ih hrest, hnone, diffGet]
        simp [hq]
    · cases hq : q e with
      | true =>
        simp [List.filter_cons, hq, diffGet, he, ih hrest]
      | false =>
        simp [List.filter_cons, hq, diffGet, he, ih hrest]

/-- Full characterization of `Storage::diff`: the map holds, for every
identity, exactly the pair of grouped location sets, except that identities
whose two sets coincide (including identities in neither snapshot) are
absent. -/
theorem Storage.diff_get (fs db : List ObservedFile) (t : String) :
    diffGet (Storage.diff fs db) t =
      if pathsOf db t = pathsOf fs t then none
      else some ⟨pathsOf db t, pathsOf fs t⟩ := by
  unfold Storage.diff
  simp only []
  rw [diffGet_filter _ _
      (nodup_keys_foldDb _ _ (nodup_keys_foldFs _ _ (by simp)))]
  rw [diffGet_foldDb, diffGet_foldFs]
  simp only [diffGet, pathsOf_dedup]
  by_cases hfs : pathsOf fs t = ∅
  · rw [hfs]
    simp only [if_pos rfl]
    by_cases hdb : pathsOf db t = ∅
    · simp [hdb]
    · simp [hdb, Ne.symm hdb]
  · rw [if_neg hfs]
    simp only [Finset.union_empty]
    by_cases heq : pathsOf db t = pathsOf fs t
    · simp [heq]
    · simp [heq, decide_eq_true_eq]

/-- C1: `Storage::diff` groups each snapshot's locations by identity, keeps
one `TrackChange` (the two grouped location sets) per identity appearing in
either snapshot, and drops identities whose two sets are equal; on the
concrete snapshots it yields exactly T1: new={a_new}, deleted={a};
T2: deleted={b2} only; T3: new={c2} only; T4: new={d} only. -/
theorem diff_groups_by_identity_and_drops_unchanged :
    (∀ fs db t, diffGet (Storage.diff fs db) t =
      if pathsOf db t = pathsOf fs t then none
      else some ⟨pathsOf db t, pathsOf fs t⟩) ∧
    (Storage.diff exFs exDb).map Prod.fst = ["T1", "T2", "T3", "T4"] ∧
    (diffGet (Storage.diff exFs exDb) "T1").map
      (fun c => (c.new_locations, c.deleted_locations)) = some ({"a_new"}, {"a"}) ∧
    (diffGet (Storage.diff exFs exDb) "T2").map
      (fun c => (c.new_locations, c.deleted_locations)) = some (∅, {"b2"}) ∧
    (diffGet (Storage.diff exFs exDb) "T3").map
      (fun c => (c.new_locations, c.deleted_locations)) = some ({"c2"}, ∅) ∧
    (diffGet (Storage.diff exFs exDb) "T4").map
      (fun c => (c.new_locations, c.deleted_locations)) = some ({"d"}, ∅) :=
  ⟨Storage.diff_get, by decide, by decide, by decide, by decide, by decide⟩

/-- If two finite sets differ, one of the two set differences is non-empty. -/
theorem sdiff_ne_empty_of_ne {s u : Finset String} (h : s ≠ u) :
    u \ s ≠ ∅ ∨ s \ u ≠ ∅ := by
  by_contra hc
  push_neg at hc
  obtain ⟨h1, h2⟩ := hc
  exact h (Finset.Subset.antisymm
    (Finset.sdiff_eq_empty_iff_subset.mp h2)
    (Finset.sdiff_eq_empty_iff_subset.mp h1))

/-- C2: every identity present in the map returned by `Storage::diff` has a
non-empty set of new locations or a non-empty set of deleted locations, and
its two grouped location sets are not equal. -/
theorem diff_entry_has_nonempty_change (fs db : List ObservedFile) (t : String)
    (c : TrackChange) (h : diffGet (Storage.diff fs db) t = some c) :
    (c.new_locations ≠ ∅ ∨ c.deleted_locations ≠ ∅) ∧
    pathsOf db t ≠ pathsOf fs t := by
  rw [Storage.diff_get] at h
  by_cases heq : pathsOf db t = pathsOf fs t
  · rw [if_pos heq] at h
    exact absurd h (by simp)
  · rw [if_neg heq] at h
    refine ⟨?_, heq⟩
    have hc : c = ⟨pathsOf db t, pathsOf fs t⟩ := (Option.some.injEq _ _ ▸ h).symm
    subst hc
    exact sdiff_ne_empty_of_ne heq

/-- Witness for C2 at the concrete example's identity T1. -/
theorem diff_entry_has_nonempty_change_witness :
    ((TrackChange.new_locations ⟨{"a"}, {"a_new"}⟩ ≠ ∅ ∨
      TrackChange.deleted_locations ⟨{"a"}, {"a_new"}⟩ ≠ ∅) ∧
     pathsOf exDb "T1" ≠ pathsOf exFs "T1") :=
  diff_entry_has_nonempty_change exFs exDb "T1" ⟨{"a"}, {"a_new"}⟩ (by decide)

/-! ### C3: forget_path -/

/-- C3 counterexample: forgetting `/music` deletes B's last `files` row,
but B's `tracks` row and `track_metadata` row are still in the catalog —
`forget_path` only counts such identities, it never deletes from `tracks`
or `track_metadata`, and the schema's cascade runs from `tracks` to its
children, so nothing removes them. -/
theorem forget_path_keeps_orphan_track_rows :
    (((Storage.forget_path exForget "/music" 50).2.files.filter
        (fun f => f.1 = "B")).length = 0) ∧
    "B" ∈ (Storage.forget_path exForget "/music" 50).2.tracks ∧
    ("B", exMeta) ∈ (Storage.forget_path exForget "/music" 50).2.track_metadata := by
  decide

/-- For a wildcard-free literal `w`, matching `w ++ "%"` by SQLite `LIKE`
is exactly the ASCII-case-insensitive prefix test against `w`. -/
theorem likeMatch_literal_percent (w s : List Char)
    (hw : ∀ c ∈ w, c ≠ '%' ∧ c ≠ '_') :
    likeMatch (w ++ ['%']) s = true ↔
      List.isPrefixOf (w.map asciiLower) (s.map asciiLower) = true := by
  induction w generalizing s with
  | nil =>
    rw [List.nil_append]
    constructor
    · intro _
      simp [List.isPrefixOf]
    · intro _
      show likeMatch ['%'] s = true
      simp only [likeMatch, if_true]
      rw [List.any_eq_true]
      exact ⟨[], (List.mem_tails _ _).mpr List.nil_suffix, rfl⟩
  | cons c w' ih =>
    have hc := hw c (by simp)
    have hw' : ∀ d ∈ w', d ≠ '%' ∧ d ≠ '_' := fun d hd => hw d (by simp [hd])
    rw [List.cons_append]
    cases s with
    | nil =>
      simp only [likeMatch, List.map]
      rw [if_neg hc.1]
      simp [List.isPrefixOf]
    | cons d s' =>
      simp only [likeMatch, List.map]
      rw [if_neg hc.1, if_neg hc.2, Bool.and_eq_true, ih s' hw']
      constructor
      · rintro ⟨h1, h2⟩
        rw [decide_eq_true_eq] at h1
        simp [List.isPrefixOf, h1, h2]
      · intro h
        simp only [List.isPrefixOf, Bool.and_eq_true, beq_iff_eq] at h
        exact ⟨by rw [decide_eq_true_eq]; exact h.1, h.2⟩

/-- C3 amended: within the one modelled transaction, `forget_path` deletes
exactly the `files` rows matched by `path = subtree OR path LIKE
subtree || '/%'` under SQLite's default `LIKE` semantics — for a subtree
containing no `%` or `_` this is exact equality with the subtree or an
ASCII-case-insensitive nested-under-the-subtree prefix test, while a
differently-cased subtree still matches (`/Music` deletes `/music/x`) and
a `_` in the subtree acts as a one-character wildcard — appends one ledger
entry, reports (but does not perform) the removal of identities left with
zero `files` rows, and leaves the `tracks` and `track_metadata` tables
unchanged; on the spec §8 example it reports 3 removed files, 2 affected
identities, 1 track left with zero rows. -/
theorem forget_path_deletes_subtree_and_reports (s : DBState) (sub : String)
    (now : Int) :
    (∀ f, f ∈ (Storage.forget_path s sub now).2.files ↔
      f ∈ s.files ∧ matchesSubtree sub f.2 = false) ∧
    (Storage.forget_path s sub now).2.tracks = s.tracks ∧
    (Storage.forget_path s sub now).2.track_metadata = s.track_metadata ∧
    (Storage.forget_path s sub now).2.updates = s.updates ++ [now] ∧
    (Storage.forget_path s sub now).1.removed_files =
      (s.files.filter (fun f => matchesSubtree sub f.2)).length ∧
    (∀ p, (∀ c ∈ sub.data, c ≠ '%' ∧ c ≠ '_') →
      (matchesSubtree sub p = true ↔
        (p = sub ∨ List.isPrefixOf ((sub ++ "/").data.map asciiLower)
          (p.data.map asciiLower) = true))) ∧
    matchesSubtree "/Music" "/music/x" = true ∧
    matchesSubtree "/my_music" "/myXmusic/t.mp3" = true ∧
    matchesSubtree "/Music" "/music" = false ∧
    (Storage.forget_path exForget "/music" 50).1 = ⟨3, 2, 1⟩ := by
  refine ⟨?_, rfl, rfl, rfl, rfl, ?_, by decide, by decide, by decide, by decide⟩
  · intro f
    simp only [Storage.forget_path, List.mem_filter, Bool.not_eq_true,
      decide_eq_true_eq]
  · intro p hsub
    have hw : ∀ c ∈ (sub ++ "/").data, c ≠ '%' ∧ c ≠ '_' := by
      rw [String.data_append]
      intro c hcmem
      rcases List.mem_append.mp hcmem with h | h
      · exact hsub c h
      · simp at h
        subst h
        exact ⟨by decide, by decide⟩
    have hpat : (sub ++ "/%").data = (sub ++ "/").data ++ ['%'] := by
      rw [String.data_append, String.data_append, List.append_assoc]
      rfl
    simp only [matchesSubtree]
    rw [Bool.or_eq_true, decide_eq_true_eq, hpat,
      likeMatch_literal_percent _ _ hw]

/-- Witness for the amended C3 statement at the concrete forget example. -/
theorem forget_path_deletes_subtree_and_reports_witness :
    ("A", "/other/x3") ∈ (Storage.forget_path exForget "/music" 50).2.files ∧
    (Storage.forget_path exForget "/music" 50).2.tracks = exForget.tracks :=
  ⟨((forget_path_deletes_subtree_and_reports exForget "/music" 50).1
      ("A", "/other/x3")).mpr ⟨by decide, by decide⟩,
   (forget_path_deletes_subtree_and_reports exForget "/music" 50).2.1⟩

/-! ### C6: get_track -/

/-- Unfolded form of `Storage.get_track`. -/
theorem get_track_eq (s : DBState) (fs : FileSystem) (tid : String) :
    Storage.get_track s fs tid =
      if (s.files.filter (fun f => f.1 = tid)).map (fun f => f.2) = [] then
        .error (.TrackNotFound tid)
      else
        match ((s.files.filter (fun f => f.1 = tid)).map (fun f => f.2)).find?
            (fun p => is_valid_music_path fs p) with
        | some path => .ok (tid, path,
            (s.track_metadata.find? (fun row => row.1 = tid)).map (fun row => row.2))
        | none => .error (.InvalidTrackFile tid) := rfl

/-- C6: `get_track` fails with `TrackNotFound` exactly when no path is
stored for the identity; with stored paths it returns the first one passing
`is_valid_music_path` together with the stored metadata row when present
(absence of metadata is not an error), and fails with `InvalidTrackFile`
exactly when some path is stored but every stored path fails the check. -/
theorem get_track_validity_filtering (s : DBState) (fs : FileSystem) (tid : String) :
    (Storage.get_track s fs tid = .error (.TrackNotFound tid) ↔
      (s.files.filter (fun f => f.1 = tid)).map (fun f => f.2) = []) ∧
    (Storage.get_track s fs tid = .error (.InvalidTrackFile tid) ↔
      ((s.files.filter (fun f => f.1 = tid)).map (fun f => f.2) ≠ [] ∧
        ∀ p ∈ (s.files.filter (fun f => f.1 = tid)).map (fun f => f.2),
          is_valid_music_path fs p = false)) ∧
    (∀ p meta, Storage.get_track s fs tid = .ok (tid, p, meta) →
      (((s.files.filter (fun f => f.1 = tid)).map (fun f => f.2)).find?
          (fun q => is_valid_music_path fs q) = some p ∧
        meta = (s.track_metadata.find? (fun row => row.1 = tid)).map
          (fun row => row.2))) ∧
    (∀ p, ((s.files.filter (fun f => f.1 = tid)).map (fun f => f.2)).find?
        (fun q => is_valid_music_path fs q) = some p →
      Storage.get_track s fs tid = .ok (tid, p,
        (s.track_metadata.find? (fun row => row.1 = tid)).map (fun row => row.2))) := by
  rw [get_track_eq]
  by_cases hp : (s.files.filter (fun f => f.1 = tid)).map (fun f => f.2) = []
  · rw [if_pos hp]
    refine ⟨⟨fun _ => hp, fun _ => rfl⟩,
      ⟨fun h => absurd h (by simp), fun h => absurd hp h.1⟩, ?_, ?_⟩
    · intro p meta h
      exact absurd h (by simp)
    · intro p h
      rw [hp] at h
      exact absurd h (by simp)
  · rw [if_neg hp]
    cases hf : ((s.files.filter (fun f => f.1 = tid)).map (fun f => f.2)).find?
        (fun q => is_valid_music_path fs q) with
    | some q =>
      have hq := List.find?_some hf
      have hqm := List.mem_of_find?_eq_some hf
      dsimp only
      refine ⟨⟨fun h => Except.noConfusion h, fun h => absurd h hp⟩,
        ⟨fun h => Except.noConfusion h, ?_⟩, ?_, ?_⟩
      · rintro ⟨-, hall⟩
        rw [hall q hqm] at hq
        exact Bool.noConfusion hq
      · intro p meta h
        rw [Except.ok.injEq] at h
        simp only [Prod.mk.injEq] at h
        exact ⟨by rw [h.2.1], h.2.2.symm⟩
      · intro p h
        rw [Option.some.injEq] at h
        rw [h]
    | none =>
      dsimp only
      have hall := List.find?_eq_none.mp hf
      refine ⟨⟨fun h => absurd h (by simp), fun h => absurd h hp⟩,
        ⟨fun _ => ⟨hp, fun p hpm => ?_⟩, fun _ => rfl⟩, ?_, ?_⟩
      · simpa using hall p hpm
      · intro p meta h
        exact Except.noConfusion h
      · intro p h
        exact Option.noConfusion h

/-- Witness for C6 at the concrete lookup example: the invalid `.txt` path
is skipped and the valid `.mp3` path is returned with the metadata row. -/
theorem get_track_validity_filtering_witness :
    Storage.get_track exStore exFsMap "T1" = .ok ("T1", "/lib/good.mp3",
      (exStore.track_metadata.find? (fun row => row.1 = "T1")).map
        (fun row => row.2)) :=
  (get_track_validity_filtering exStore exFsMap "T1").2.2.2 "/lib/good.mp3"
    (by decide)

/-! ### Helper lemmas: sortFinset and insert_tracks -/

theorem mem_sortFinset {s : Finset String} {p : String} :
    p ∈ sortFinset s ↔ p ∈ s := by
  rcases s with ⟨⟨l⟩, hs⟩
  rw [show sortFinset ⟨Quot.mk _ l, hs⟩ = List.insertionSort strLe l from rfl]
  rw [List.Perm.mem_iff (List.perm_insertionSort _ _)]
  simp [Finset.mem_mk]

theorem insertStep_files (acc : Nat × DBState) (it : String × String) :
    (insertStep acc it).2.files =
      if it ∈ acc.2.files then acc.2.files else acc.2.files ++ [it] := by
  simp only [insertStep]
  by_cases h1 : it.1 ∈ acc.2.tracks <;> by_cases h2 : it ∈ acc.2.files <;>
    simp [h1, h2]

theorem insertStep_tracks (acc : Nat × DBState) (it : String × String) :
    (insertStep acc it).2.tracks =
      if it.1 ∈ acc.2.tracks then acc.2.tracks else acc.2.tracks ++ [it.1] := by
  simp only [insertStep]
  by_cases h1 : it.1 ∈ acc.2.tracks <;> by_cases h2 : it ∈ acc.2.files <;>
    simp [h1, h2]

theorem insertStep_updates (acc : Nat × DBState) (it : String × String) :
    (insertStep acc it).2.updates = acc.2.updates := by
  simp only [insertStep]
  by_cases h1 : it.1 ∈ acc.2.tracks <;> by_cases h2 : it ∈ acc.2.files <;>
    simp [h1, h2]

theorem insertStep_metadata (acc : Nat × DBState) (it : String × String) :
    (insertStep acc it).2.track_metadata = acc.2.track_metadata := by
  simp only [insertStep]
  by_cases h1 : it.1 ∈ acc.2.tracks <;> by_cases h2 : it ∈ acc.2.files <;>
    simp [h1, h2]

theorem foldl_insertStep_files_mono (items : List (String × String))
    (acc : Nat × DBState) (row : String × String) (h : row ∈ acc.2.files) :
    row ∈ (items.foldl insertStep acc).2.files := by
  induction items generalizing acc with
  | nil => exact h
  | cons it rest ih =>
    rw [List.foldl_cons]
    refine ih _ ?_
    rw [insertStep_files]
    by_cases h2 : it ∈ acc.2.files
    · rwa [if_pos h2]
    · rw [if_neg h2]
      exact List.mem_append_left _ h

theorem foldl_insertStep_tracks_mono (items : List (String × String))
    (acc : Nat × DBState) (t : String) (h : t ∈ acc.2.tracks) :
    t ∈ (items.foldl insertStep acc).2.tracks := by
  induction items generalizing acc with
  | nil => exact h
  | cons it rest ih =>
    rw [List.foldl_cons]
    refine ih _ ?_
    rw [insertStep_tracks]
    by_cases h1 : it.1 ∈ acc.2.tracks
    · rwa [if_pos h1]
    · rw [if_neg h1]
      exact List.mem_append_left _ h

theorem foldl_insertStep_updates (items : List (String × String))
    (acc : Nat × DBState) :
    (items.foldl insertStep acc).2.updates = acc.2.updates := by
  induction items generalizing acc with
  | nil => rfl
  | cons it rest ih =>
    rw [List.foldl_cons, ih, insertStep_updates]

theorem foldl_insertStep_metadata (items : List (String × String))
    (acc : Nat × DBState) :
    (items.foldl insertStep acc).2.track_metadata = acc.2.track_metadata := by
  induction items generalizing acc with
  | nil => rfl
  | cons it rest ih =>
    rw [List.foldl_cons, ih, insertStep_metadata]

theorem foldl_insertStep_mem (items : List (String × String))
    (acc : Nat × DBState) (it : String × String) (h : it ∈ items) :
    it ∈ (items.foldl insertStep acc).2.files ∧
    it.1 ∈ (items.foldl insertStep acc).2.tracks := by
  induction items generalizing acc with
  | nil => cases h
  | cons x rest ih =>
    rw [List.foldl_cons]
    rcases List.mem_cons.mp h with rfl | hmem
    · constructor
      · apply foldl_insertStep_files_mono
        rw [insertStep_files]
        by_cases h2 : it ∈ acc.2.files
        · rwa [if_pos h2]
        · rw [if_neg h2]
          exact List.mem_append_right _ (by simp)
      · apply foldl_insertStep_tracks_mono
        rw [insertStep_tracks]
        by_cases h1 : it.1 ∈ acc.2.tracks
        · rwa [if_pos h1]
        · rw [if_neg h1]
          exact List.mem_append_right _ (by simp)
    · exact ih _ hmem

theorem foldl_insertStep_noop (items : List (String × String)) (n : Nat)
    (st : DBState) (h : ∀ it ∈ items, it ∈ st.files ∧ it.1 ∈ st.tracks) :
    items.foldl insertStep (n, st) = (n, st) := by
  induction items with
  | nil => rfl
  | cons it rest ih =>
    rw [List.foldl_cons]
    have h1 := (h it (by simp)).1
    have h2 := (h it (by simp)).2
    have hstep : insertStep (n, st) it = (n, st) := by
      simp [insertStep, h1, h2]
    rw [hstep]
    exact ih (fun x hx => h x (by simp [hx]))

theorem foldl_insertStep_nodup (items : List (String × String))
    (acc : Nat × DBState) (h : acc.2.files.Nodup) :
    (items.foldl insertStep acc).2.files.Nodup := by
  induction items generalizing acc with
  | nil => exact h
  | cons it rest ih =>
    rw [List.foldl_cons]
    refine ih _ ?_
    rw [insertStep_files]
    by_cases h2 : it ∈ acc.2.files
    · rwa [if_pos h2]
    · rw [if_neg h2]
      exact List.Nodup.append h (List.nodup_singleton it)
        (fun x hx hx2 => h2 (by simp at hx2; rw [hx2] at hx; exact hx))

/-- Lemma: `insert_tracks` unfolded to its fold. -/
theorem insert_tracks_eq (s : DBState) (items : List (String × String))
    (now : Int) :
    Storage.insert_tracks s items now =
      ((items.foldl insertStep (0, s)).1,
       { (items.foldl insertStep (0, s)).2 with
          updates := (items.foldl insertStep (0, s)).2.updates ++ [now] }) := rfl

/-! ### C7: update_db_with_new_files -/

theorem diffGet_of_mem (m : Diff) (h : (m.map Prod.fst).Nodup) {t : String}
    {c : TrackChange} (hm : (t, c) ∈ m) : diffGet m t = some c := by
  induction m with
  | nil => cases hm
  | cons e rest ih =>
    have h' : (e.1 :: rest.map Prod.fst).Nodup := by simpa using h
    have hnd := List.nodup_cons.mp h'
    rcases List.mem_cons.mp hm with heq | hmem
    · rw [← heq]
      simp [diffGet]
    · have ht : t ∈ rest.map Prod.fst :=
        List.mem_map.mpr ⟨(t, c), hmem, rfl⟩
      have hne : ¬e.1 = t := fun hh => hnd.1 (hh ▸ ht)
      simp only [diffGet, hne, if_neg, ite_false]
      exact ih hnd.2 hmem

theorem mem_of_diffGet {m : Diff} {t : String} {c : TrackChange}
    (h : diffGet m t = some c) : (t, c) ∈ m := by
  induction m with
  | nil => cases h
  | cons e rest ih =>
    by_cases he : e.1 = t
    · simp only [diffGet, he, if_pos, ite_true] at h
      rcases e with ⟨t1, c1⟩
      simp only at he
      rw [Option.some.injEq] at h
      rw [← he, ← h]
      exact List.mem_cons_self _ _
    · simp only [diffGet, he, if_neg, ite_false] at h
      exact List.mem_cons_of_mem _ (ih h)

theorem diff_keys_nodup (fs db : List ObservedFile) :
    ((Storage.diff fs db).map Prod.fst).Nodup := by
  unfold Storage.diff
  have h2 := nodup_keys_foldDb db.dedup
    (fs.dedup.foldl (fun m f => addFsPath m f.track_id f.path) [])
    (nodup_keys_foldFs fs.dedup [] (by simp))
  exact List.Nodup.sublist
    (List.Sublist.map Prod.fst (List.filter_sublist _)) h2

/-- C7: the commit step returns exactly the new locations of the diff —
for the diff computed by `status`, exactly the locations present on the
filesystem and absent from the catalog — and never removes an existing
`files` row: rows for vanished files survive every update commit. -/
theorem update_db_commits_exactly_new_locations (s : DBState) (d : Diff)
    (fsSnap : FsSnapshot) (now : Int) :
    (∀ f : ObservedFile,
      f ∈ (Storage.update_db_with_new_files_inner s d now).1 ↔
        ∃ e ∈ d, e.1 = f.track_id ∧ f.path ∈ e.2.new_locations) ∧
    (∀ row ∈ s.files,
      row ∈ (Storage.update_db_with_new_files_inner s d now).2.files) ∧
    (∀ f : ObservedFile,
      f ∈ (Storage.update_db_with_new_files s fsSnap now).1 ↔
        (f.path ∈ pathsOf fsSnap.files f.track_id ∧
         f.path ∉ pathsOf (Storage.scan_db s).files f.track_id)) ∧
    (∀ row ∈ s.files,
      row ∈ (Storage.update_db_with_new_files s fsSnap now).2.files) := by
  have hret : ∀ (d : Diff) (f : ObservedFile),
      f ∈ (Storage.update_db_with_new_files_inner s d now).1 ↔
        ∃ e ∈ d, e.1 = f.track_id ∧ f.path ∈ e.2.new_locations := by
    intro d f
    show f ∈ d.flatMap _ ↔ _
    simp only [List.mem_flatMap, List.mem_map, mem_sortFinset]
    constructor
    · rintro ⟨e, he, p, hp, rfl⟩
      exact ⟨e, he, rfl, hp⟩
    · rintro ⟨e, he, h1, h2⟩
      refine ⟨e, he, f.path, h2, ?_⟩
      rw [h1]
  have hframe : ∀ (d : Diff) (row : String × String), row ∈ s.files →
      row ∈ (Storage.update_db_with_new_files_inner s d now).2.files := by
    intro d row hrow
    show row ∈ (Storage.insert_tracks s _ now).2.files
    rw [insert_tracks_eq]
    exact foldl_insertStep_files_mono _ _ _ hrow
  refine ⟨hret d, hframe d, ?_, fun row h => hframe _ row h⟩
  intro f
  rw [show (Storage.update_db_with_new_files s fsSnap now).1 =
    (Storage.update_db_with_new_files_inner s
      (Storage.diff fsSnap.files (Storage.scan_db s).files) now).1 from rfl]
  rw [hret _ f]
  have hnd := diff_keys_nodup fsSnap.files (Storage.scan_db s).files
  constructor
  · rintro ⟨e, he, h1, h2⟩
    have hmem : (f.track_id, e.2) ∈
        Storage.diff fsSnap.files (Storage.scan_db s).files := by
      rw [← h1]
      simpa using he
    have hg := diffGet_of_mem _ hnd hmem
    rw [Storage.diff_get] at hg
    by_cases heq : pathsOf (Storage.scan_db s).files f.track_id =
        pathsOf fsSnap.files f.track_id
    · rw [if_pos heq] at hg
      cases hg
    · rw [if_neg heq] at hg
      rw [Option.some.injEq] at hg
      have := h2
      rw [← hg] at this
      simpa [TrackChange.new_locations, Finset.mem_sdiff] using this
  · rintro ⟨h1, h2⟩
    have heq : pathsOf (Storage.scan_db s).files f.track_id ≠
        pathsOf fsSnap.files f.track_id := by
      intro hh
      rw [hh] at h2
      exact h2 h1
    have hg : diffGet (Storage.diff fsSnap.files (Storage.scan_db s).files)
        f.track_id = some ⟨pathsOf (Storage.scan_db s).files f.track_id,
          pathsOf fsSnap.files f.track_id⟩ := by
      rw [Storage.diff_get, if_neg heq]
    refine ⟨(f.track_id, ⟨pathsOf (Storage.scan_db s).files f.track_id,
      pathsOf fsSnap.files f.track_id⟩), mem_of_diffGet hg, rfl, ?_⟩
    simp [TrackChange.new_locations, Finset.mem_sdiff, h1, h2]

/-- Witness for C7: a brand-new location is committed and an existing row
survives the commit. -/
theorem update_db_commits_exactly_new_locations_witness :
    (ObservedFile.mk "T1" "a.mp3" ∈
      (Storage.update_db_with_new_files
        ⟨["T0"], [("T0", "old.mp3")], [], []⟩ ⟨100, [⟨"T1", "a.mp3"⟩]⟩ 7).1) ∧
    ("T0", "old.mp3") ∈
      (Storage.update_db_with_new_files
        ⟨["T0"], [("T0", "old.mp3")], [], []⟩ ⟨100, [⟨"T1", "a.mp3"⟩]⟩ 7).2.files := by
  have h := update_db_commits_exactly_new_locations
    ⟨["T0"], [("T0", "old.mp3")], [], []⟩ [] ⟨100, [⟨"T1", "a.mp3"⟩]⟩ 7
  exact ⟨(h.2.2.1 ⟨"T1", "a.mp3"⟩).mpr ⟨by decide, by decide⟩,
    h.2.2.2 ("T0", "old.mp3") (by decide)⟩

/-! ### C8: idempotent ingestion -/

/-- C8: committing the same (identity, path) pairs twice is idempotent on
the data tables: the second `insert_tracks` reports 0 inserted rows and
leaves `files` and `tracks` exactly as after the first commit; and when the
`files` table starts duplicate-free it stays duplicate-free, so each pair
is stored at most once. -/
theorem insert_tracks_idempotent (s : DBState) (items : List (String × String))
    (now1 now2 : Int) :
    (Storage.insert_tracks (Storage.insert_tracks s items now1).2 items now2).1 = 0 ∧
    (Storage.insert_tracks (Storage.insert_tracks s items now1).2 items now2).2.files =
      (Storage.insert_tracks s items now1).2.files ∧
    (Storage.insert_tracks (Storage.insert_tracks s items now1).2 items now2).2.tracks =
      (Storage.insert_tracks s items now1).2.tracks ∧
    (s.files.Nodup → (Storage.insert_tracks s items now1).2.files.Nodup) := by
  have hmem := fun it (hit : it ∈ items) => foldl_insertStep_mem items (0, s) it hit
  have hnoop : items.foldl insertStep
      (0, (Storage.insert_tracks s items now1).2) =
      (0, (Storage.insert_tracks s items now1).2) := by
    apply foldl_insertStep_noop
    intro it hit
    exact hmem it hit
  refine ⟨?_, ?_, ?_, ?_⟩
  · show (items.foldl insertStep
      (0, (Storage.insert_tracks s items now1).2)).1 = 0
    rw [hnoop]
  · show ({ (items.foldl insertStep
        (0, (Storage.insert_tracks s items now1).2)).2 with
      updates := _ }).files = _
    rw [hnoop]
  · show ({ (items.foldl insertStep
        (0, (Storage.insert_tracks s items now1).2)).2 with
      updates := _ }).tracks = _
    rw [hnoop]
  · intro hnd
    rw [insert_tracks_eq]
    exact foldl_insertStep_nodup items (0, s) hnd

/-- Witness for C8: re-inserting an already stored pair is a no-op. -/
theorem insert_tracks_idempotent_witness :
    (Storage.insert_tracks
      (Storage.insert_tracks ⟨[], [], [], []⟩ [("T1", "a.mp3")] 1).2
      [("T1", "a.mp3")] 2).1 = 0 ∧
    (Storage.insert_tracks ⟨[], [], [], []⟩ [("T1", "a.mp3")] 1).2.files.Nodup := by
  have h := insert_tracks_idempotent ⟨[], [], [], []⟩ [("T1", "a.mp3")] 1 2
  exact ⟨h.1, h.2.2.2 (by decide)⟩

/-- The committed state's ledger is the old ledger plus the one commit-time
row. -/
theorem update_inner_updates (s : DBState) (d : Diff) (now : Int) :
    (Storage.update_db_with_new_files_inner s d now).2.updates =
      s.updates ++ [now] := by
  show (Storage.insert_tracks s _ now).2.updates = _
  rw [insert_tracks_eq]
  dsimp only
  rw [foldl_insertStep_updates]

/-! ### C9: the ledger timestamp -/

/-- C9 counterexample: a scan observed at time 100 that leads to a commit
executed at time 200 appends 200 — the commit-time `SystemTime::now()`
sampled inside `insert_tracks` — to the `updates` ledger, not the
snapshot's observation timestamp 100. -/
theorem ledger_entry_not_observation_timestamp :
    (Storage.update_db_with_new_files ⟨[], [], [], []⟩
      ⟨100, [⟨"T1", "a.mp3"⟩]⟩ 200).2.updates = [200] ∧
    (FsSnapshot.mk 100 [⟨"T1", "a.mp3"⟩]).observed_at = 100 ∧
    (200 : Int) ≠ 100 := by
  refine ⟨?_, rfl, by decide⟩
  show (Storage.update_db_with_new_files_inner ⟨[], [], [], []⟩ _ 200).2.updates
    = [200]
  rw [update_inner_updates]
  rfl

/-- C9 amended: the row appended to the updates ledger carries the
commit-time clock sample `now` made inside `insert_tracks`, and the
snapshot's observation timestamp does not influence the commit at all. -/
theorem ledger_carries_commit_time (s : DBState) (fs : FsSnapshot) (now t : Int) :
    (Storage.update_db_with_new_files s fs now).2.updates =
      s.updates ++ [now] ∧
    Storage.update_db_with_new_files s ⟨t, fs.files⟩ now =
      Storage.update_db_with_new_files s fs now := by
  constructor
  · show (Storage.update_db_with_new_files_inner s _ now).2.updates =
      s.updates ++ [now]
    exact update_inner_updates s _ now
  · rfl

/-! ### C4, C5: byte-range streaming -/

theorem with_extra_headers_status (meta : Option TrackMetadata)
    (r : HttpResponse) : (with_extra_headers meta r).status_code = r.status_code := by
  cases meta <;> rfl

theorem with_extra_headers_body (meta : Option TrackMetadata)
    (r : HttpResponse) : (with_extra_headers meta r).body = r.body := by
  cases meta <;> rfl

theorem with_extra_headers_mono (meta : Option TrackMetadata)
    (r : HttpResponse) (h : String × String) (hm : h ∈ r.headers) :
    h ∈ (with_extra_headers meta r).headers := by
  cases meta <;> simp [with_extra_headers, hm]

theorem with_extra_headers_accept (meta : Option TrackMetadata)
    (r : HttpResponse) :
    ("Accept-Ranges", "bytes") ∈ (with_extra_headers meta r).headers := by
  cases meta <;> simp [with_extra_headers]

/-- C4: a Range header from which the code extracts `(start, end)` — in
particular `bytes=<start>-<end>` with numeric bounds — is served as a 206
partial response with the exact `Content-Range` header and exactly
`end - start + 1` bytes beginning at offset `start` whenever
`start ≤ end ∧ end < file_size`; otherwise the request fails with the
distinct `InvalidRange` error, whose status code is 416 — it is never
clamped. -/
theorem range_request_served (bytes : List Nat) (meta : Option TrackMetadata)
    (mime range : String) (start stop : Nat)
    (hr : range_start_end range bytes.length = some (start, stop)) :
    (start ≤ stop ∧ stop < bytes.length →
      ∃ resp, serve_stream bytes meta mime (some range) = .ok resp ∧
        resp.status_code = 206 ∧
        ("Content-Range", "bytes " ++ toString start ++ "-" ++ toString stop ++
          "/" ++ toString bytes.length) ∈ resp.headers ∧
        resp.body = (bytes.drop start).take (stop - start + 1) ∧
        resp.body.length = stop - start + 1 ∧
        (∀ i, i < stop - start + 1 → resp.body[i]? = bytes[start + i]?)) ∧
    (start > stop ∨ stop ≥ bytes.length →
      serve_stream bytes meta mime (some range) = .error ApiError.InvalidRange) ∧
    ApiError.InvalidRange.status_code = 416 := by
  refine ⟨?_, ?_, rfl⟩
  · rintro ⟨h1, h2⟩
    have hv : ¬(start > stop ∨ stop ≥ bytes.length) := by omega
    have hserve : serve_stream bytes meta mime (some range) =
        .ok (with_extra_headers meta
          { status_code := 206,
            headers := [("Content-Type", mime),
              ("Content-Range", "bytes " ++ toString start ++ "-" ++
                toString stop ++ "/" ++ toString bytes.length)],
            body := (bytes.drop start).take (stop - start + 1) }) := by
      simp only [serve_stream, parse_http_range]
      rw [hr]
      dsimp only
      rw [if_neg hv]
    refine ⟨_, hserve, ?_, ?_, ?_, ?_, ?_⟩
    · rw [with_extra_headers_status]
    · exact with_extra_headers_mono _ _ _ (by simp)
    · rw [with_extra_headers_body]
    · rw [with_extra_headers_body]
      dsimp only
      rw [List.length_take, List.length_drop]
      omega
    · intro i hi
      rw [with_extra_headers_body]
      dsimp only
      rw [List.getElem?_take, if_pos hi, List.getElem?_drop]
  · intro hv
    simp only [serve_stream, parse_http_range]
    rw [hr]
    dsimp only
    rw [if_pos hv]

/-- Witness for C4: the spec §8 example `bytes=2-5` on a 10-byte file. -/
theorem range_request_served_witness :
    ∃ resp, serve_stream bytes10 none "audio/mpeg" (some "bytes=2-5") =
        .ok resp ∧
      resp.status_code = 206 ∧
      ("Content-Range", "bytes " ++ toString 2 ++ "-" ++ toString 5 ++ "/" ++
        toString bytes10.length) ∈ resp.headers ∧
      resp.body.length = 5 - 2 + 1 := by
  have h := range_request_served bytes10 none "audio/mpeg" "bytes=2-5" 2 5
    (by decide)
  obtain ⟨resp, e1, e2, e3, e4, e5, e6⟩ := h.1 (by decide)
  exact ⟨resp, e1, e2, e3, e5⟩

/-- C5 counterexample: the header `bytes=x-y` (non-numeric start and end)
is not rejected as unparseable — the start defaults to 0 and the end to
`file_size - 1`, so a 10-byte file is answered with 206 Partial Content,
not with the claimed 200 full-file response. -/
theorem nonnumeric_range_not_served_as_200 :
    statusOf (serve_stream bytes10 none "audio/mpeg" (some "bytes=x-y")) =
      some 206 ∧ (206 : Nat) ≠ 200 := by
  decide

/-- C5 amended: a Range header is parsed as a range exactly when it starts
with `bytes=` and the remainder splits on `-` into exactly two parts;
numeric bounds are not required (a non-numeric start defaults to 0, a
non-numeric or empty end to `file_size - 1`).  An absent header, or one
failing that form check, is served as the full file: status 200, whole
body, `Accept-Ranges: bytes`. -/
theorem absent_or_formless_range_served_full (bytes : List Nat)
    (meta : Option TrackMetadata) (mime : String) :
    (∀ r n, range_start_end r n = none ↔
      (¬List.isPrefixOf "bytes=".data r.data ∨
        (splitChar '-' (r.data.drop 6)).length ≠ 2)) ∧
    (∀ rh, (rh = none ∨ ∃ r, rh = some r ∧
        range_start_end r bytes.length = none) →
      ∃ resp, serve_stream bytes meta mime rh = .ok resp ∧
        resp.status_code = 200 ∧ resp.body = bytes ∧
        ("Accept-Ranges", "bytes") ∈ resp.headers) := by
  constructor
  · intro r n
    by_cases hp : List.isPrefixOf "bytes=".data r.data
    · rcases hsp : splitChar '-' (r.data.drop 6) with _ | ⟨p0, rest⟩
      · simp [range_start_end, hp, hsp]
      · rcases rest with _ | ⟨p1, rest2⟩
        · simp [range_start_end, hp, hsp]
        · rcases rest2 with _ | ⟨p2, rest3⟩
          · simp [range_start_end, hp, hsp]
          · simp [range_start_end, hp, hsp]
    · simp [range_start_end, hp]
  · rintro rh (rfl | ⟨r, rfl, hr⟩)
    · exact ⟨_, rfl, with_extra_headers_status _ _,
        with_extra_headers_body _ _, with_extra_headers_accept _ _⟩
    · have hserve : serve_stream bytes meta mime (some r) =
          .ok (with_extra_headers meta
            { status_code := 200, headers := [("Content-Type", mime)],
              body := bytes }) := by
        simp only [serve_stream, parse_http_range]
        rw [hr]
      exact ⟨_, hserve, with_extra_headers_status _ _,
        with_extra_headers_body _ _, with_extra_headers_accept _ _⟩

/-- Witness for the amended C5 at an absent Range header. -/
theorem absent_or_formless_range_served_full_witness :
    ∃ resp, serve_stream bytes10 none "audio/mpeg" none = .ok resp ∧
      resp.status_code = 200 ∧ resp.body = bytes10 ∧
      ("Accept-Ranges", "bytes") ∈ resp.headers :=
  (absent_or_formless_range_served_full bytes10 none "audio/mpeg").2 none
    (Or.inl rfl)

/-! ### C10: non-empty file precondition for range parsing -/

/-- C10: a path returned by `get_track` passed `is_valid_music_path`, which
rejects zero-length files, so the file opened by the stream handler is
non-empty; under that precondition the `u64` subtraction `file_size - 1`
does not wrap, and every `(start, end)` pair `parse_http_range` returns
satisfies `start ≤ end ∧ end < file_size`. -/
theorem get_track_stream_nonempty_file_safe (s : DBState) (fs : FileSystem)
    (tid : String) (r : String × String × Option TrackMetadata)
    (hok : Storage.get_track s fs tid = .ok r) (f : FsFile)
    (hf : fs r.2.1 = some f) (hs : f.content.length < 2 ^ 64) :
    1 ≤ f.content.length ∧
    u64_sub_one f.content.length = f.content.length - 1 ∧
    (∀ range start stop,
      parse_http_range range f.content.length = .ok (some (start, stop)) →
      start ≤ stop ∧ stop < f.content.length) := by
  have hv : is_valid_music_path fs r.2.1 = true := by
    rw [get_track_eq] at hok
    by_cases hp : (s.files.filter (fun g => g.1 = tid)).map (fun g => g.2) = []
    · rw [if_pos hp] at hok
      exact absurd hok (by simp)
    · rw [if_neg hp] at hok
      cases hfind : ((s.files.filter (fun g => g.1 = tid)).map
          (fun g => g.2)).find? (fun p => is_valid_music_path fs p) with
      | some q =>
        rw [hfind] at hok
        have hq := List.find?_some hfind
        rw [Except.ok.injEq] at hok
        rw [← hok]
        exact hq
      | none =>
        rw [hfind] at hok
        exact absurd hok (by simp)
  have hlen : f.content.length ≠ 0 := by
    simp only [is_valid_music_path, hf] at hv
    by_cases g1 : f.is_file = true
    · by_cases g2 : is_music_file r.2.1 = true
      · by_cases g3 : f.content.length = 0
        · simp [g1, g2, g3] at hv
        · exact g3
      · simp [g1, g2] at hv
    · simp [g1] at hv
  refine ⟨by omega, ?_, ?_⟩
  · have he : f.content.length + 2 ^ 64 - 1 =
        2 ^ 64 + (f.content.length - 1) := by omega
    rw [u64_sub_one, he, Nat.add_mod_left, Nat.mod_eq_of_lt (by omega)]
  · intro range start stop hpr
    simp only [parse_http_range] at hpr
    cases hre : range_start_end range f.content.length with
    | none =>
      rw [hre] at hpr
      exact absurd hpr (by simp)
    | some ab =>
      rw [hre] at hpr
      dsimp only at hpr
      by_cases hcond : ab.1 > ab.2 ∨ ab.2 ≥ f.content.length
      · rw [if_pos hcond] at hpr
        exact absurd hpr (by simp)
      · rw [if_neg hcond] at hpr
        rw [Except.ok.injEq, Option.some.injEq, Prod.mk.injEq] at hpr
        push_neg at hcond
        obtain ⟨h1, h2⟩ := hpr
        omega

/-- Witness for C10 at the concrete lookup example and range `bytes=0-0`. -/
theorem get_track_stream_nonempty_file_safe_witness :
    1 ≤ (FsFile.mk true true [7]).content.length ∧
    u64_sub_one (FsFile.mk true true [7]).content.length =
      (FsFile.mk true true [7]).content.length - 1 ∧
    ((0 : Nat) ≤ 0 ∧ 0 < (FsFile.mk true true [7]).content.length) := by
  have h := get_track_stream_nonempty_file_safe exStore exFsMap "T1"
    ("T1", "/lib/good.mp3", some exMeta) (by decide) ⟨true, true, [7]⟩
    (by decide) (by decide)
  exact ⟨h.1, h.2.1, h.2.2 "bytes=0-0" 0 0 (by decide)⟩

end Localdeck
